import Mathlib

/-!
Shallow embedding of the flow-based-programming example network
(`flow2go.go`): a splitter node fans a stream of sentences out to a
word-counting node and a letter-counting node, whose tagged counts are
merged by the printer node; after draining the merged stream the printer
closes the completion channel that the driver blocks on.

The pure value transformations (word counting via `strings.Split` on a
single space, letter counting via the regular expression `[a-zA-Z]`)
are embedded as functions on `List Char` / `String`; the behaviour of
each node body is embedded as the trace of events it produces on a given
finite input stream; the `merge` combinator of the printer is embedded
as a labelled transition system over an explicit state record, so that
its closure protocol and value-preservation properties can be proved
over every reachable state.
-/

namespace Flow2Go

/-- The tagged count record (`type count struct { tag string; count int }`).
The counts produced are lengths, hence non-negative, so `Nat` is used. -/
structure Count where
  tag : String
  count : Nat
  deriving DecidableEq, Repr

/-! ## Word counting (`wordCounter.Process`)

The Go code computes `len(strings.Split(sentence, " "))`.
`strings.Split` with the one-character separator `" "` cuts the string
around every occurrence of the space character; consecutive separators
produce empty fields, and the empty string yields one empty field. -/

/-- Go `strings.Split(s, " ")` on the character list of `s`: split around
every occurrence of `' '`, keeping empty fields. -/
def splitOnSpace : List Char → List (List Char)
  | [] => [[]]
  | c :: rest =>
    if c = ' ' then [] :: splitOnSpace rest
    else
      match splitOnSpace rest with
      | [] => [[c]]
      | t :: ts => (c :: t) :: ts

/-- The word count of `wordCounter.Process`:
`len(strings.Split(sentence, " "))`. -/
def wordCount (s : String) : Nat :=
  (splitOnSpace s.data).length

/-- The value sent by `wordCounter.Process` for one received sentence:
`&count{"Words", len(strings.Split(sentence, " "))}`. -/
def wordCounterEmit (s : String) : Count :=
  ⟨"Words", wordCount s⟩

/-! ## Letter counting (`letterCounter.Process` / `letterCounter.Init`)

`Init` compiles the regular expression `[a-zA-Z]` once; the loop counts
`len(lc.re.FindAllString(sentence, -1))`, i.e. the number of characters
of the sentence inside the ASCII ranges `a`–`z` and `A`–`Z`. -/

/-- One character matches the regular expression `[a-zA-Z]`. -/
def isAsciiLetter (c : Char) : Bool :=
  ('a' ≤ c && c ≤ 'z') || ('A' ≤ c && c ≤ 'Z')

/-- The letter count of `letterCounter.Process`:
`len(lc.re.FindAllString(sentence, -1))` with `re = [a-zA-Z]`, i.e. the
number of characters of the sentence matching the class. -/
def letterCount (s : String) : Nat :=
  s.data.countP isAsciiLetter

/-- The value sent by `letterCounter.Process` for one received sentence:
`&count{"Letters", len(lc.re.FindAllString(sentence, -1))}`. -/
def letterCounterEmit (s : String) : Count :=
  ⟨"Letters", letterCount s⟩

/-- The three sentences fed into the network by `main`. -/
def sentence1 : String := "I never put off till tomorrow what I can do the day after."

def sentence2 : String := "Fashion is a form of ugliness so intolerable that we have to alter it every six months."

def sentence3 : String := "Life is too important to be taken seriously."

/-! ## Node body traces

Each node's goroutine is a loop that drains its single input stream and
then closes its outputs.  For a finite input stream (the values received
before the input channel closed) the sequence of externally visible
events of the loop is a function of that stream; these traces embed the
loop bodies of `splitter.Process`, `letterCounter.Process` and
`printer.Process`. -/

/-- Events performed by the splitter goroutine on its output channels. -/
inductive SplitterEvent
  | sendOut1 (s : String)
  | sendOut2 (s : String)
  | closeOut1
  | closeOut2
  deriving DecidableEq, Repr

/-- Trace of the `splitter.Process` loop on a finite input stream: each
received value is written to `Out1` and then to `Out2` before the next
receive; when the input is exhausted, `Out1` and then `Out2` are closed. -/
def splitterTrace : List String → List SplitterEvent
  | [] => [.closeOut1, .closeOut2]
  | s :: rest => .sendOut1 s :: .sendOut2 s :: splitterTrace rest

/-- The values the splitter trace writes to `Out1`, in order. -/
def out1Values : List SplitterEvent → List String
  | [] => []
  | .sendOut1 s :: tr => s :: out1Values tr
  | _ :: tr => out1Values tr

/-- The values the splitter trace writes to `Out2`, in order. -/
def out2Values : List SplitterEvent → List String
  | [] => []
  | .sendOut2 s :: tr => s :: out2Values tr
  | _ :: tr => out2Values tr

/-- Events performed by the printer goroutine. -/
inductive PrinterEvent
  | printLine (c : Count)
  | closeDone
  deriving DecidableEq, Repr

/-- Trace of the `printer.Process` loop on the finite merged stream: each
arriving count is printed; on exhaustion the `Done` channel is closed. -/
def printerTrace : List Count → List PrinterEvent
  | [] => [.closeDone]
  | c :: rest => .printLine c :: printerTrace rest

/-- Recognizes the event that closes the `Done` channel. -/
def isCloseDone : PrinterEvent → Bool
  | .closeDone => true
  | _ => false

/-- Whether the driver's receive `<-done` has unblocked after the first
`k` printer events: the `done` channel carries no values, so the receive
unblocks exactly when the channel has been closed. -/
def driverUnblockedAt (tr : List PrinterEvent) (k : Nat) : Bool :=
  (tr.take k).any isCloseDone

/-- Events of the letterCounter goroutine: `lc.Init()` compiles the
pattern matcher for `[a-zA-Z]`, then the loop emits one tagged count per
received sentence and closes its output when the input is exhausted. -/
inductive LetterCounterEvent
  | compileMatcher
  | emit (c : Count)
  | closeCount
  deriving DecidableEq, Repr

/-- Trace of `letterCounter.Process` on a finite input stream: the
goroutine calls `lc.Init()` exactly once, at startup, before handling any
value. -/
def letterCounterTrace (xs : List String) : List LetterCounterEvent :=
  .compileMatcher :: (xs.map fun s => .emit (letterCounterEmit s)) ++ [.closeCount]

/-- Recognizes the pattern-matcher compilation event. -/
def isCompileMatcher : LetterCounterEvent → Bool
  | .compileMatcher => true
  | _ => false

/-! ## Synchronous prefixes of the `Process` methods

Each `Process` method runs a few statements on the caller's goroutine
and returns; all channel operations happen inside the goroutines it
spawns.  The statements executed synchronously, in order, are embedded
below, one constructor per kind of Go statement that occurs in them. -/

/-- The kinds of statements occurring in the bodies of the `Process`
methods and of `printer.merge`. -/
inductive SyncAct
  | consoleWrite (s : String)
  | spawnGoroutine
  | makeChan
  | wgAddCall (n : Nat)
  | chanSendOp
  | chanRecvOp
  | chanCloseOp
  | wgWaitCall
  deriving DecidableEq, Repr

/-- Whether a statement kind can suspend the executing goroutine: channel
sends and receives and `WaitGroup.Wait` are the blocking operations;
printing, spawning a goroutine, allocating a channel, `WaitGroup.Add`
and closing a channel never block. -/
def canBlock : SyncAct → Bool
  | .chanSendOp => true
  | .chanRecvOp => true
  | .wgWaitCall => true
  | _ => false

/-- Statements `splitter.Process` runs before returning. -/
def splitterProcessSyncActs : List SyncAct :=
  [.consoleWrite "Splitter starts.", .spawnGoroutine]

/-- Statements `wordCounter.Process` runs before returning. -/
def wordCounterProcessSyncActs : List SyncAct :=
  [.consoleWrite "WordCounter starts.", .spawnGoroutine]

/-- Statements `letterCounter.Process` runs before returning. -/
def letterCounterProcessSyncActs : List SyncAct :=
  [.consoleWrite "LetterCounter starts.", .spawnGoroutine]

/-- Statements `printer.merge` runs before returning: allocate `out`,
`wg.Add(2)`, spawn the two forwarding goroutines and the coordinator
goroutine. -/
def mergeSyncActs : List SyncAct :=
  [.makeChan, .wgAddCall 2, .spawnGoroutine, .spawnGoroutine, .spawnGoroutine]

/-- Statements `printer.Process` runs before returning: the console
banner, the synchronous body of `p.merge()`, and spawning the printing
goroutine. -/
def printerProcessSyncActs : List SyncAct :=
  .consoleWrite "Printer starts." :: mergeSyncActs ++ [.spawnGoroutine]

/-! ## The merge combinator of the printer (`printer.merge`)

`merge` launches one forwarding goroutine per input channel; each copies
values from its input to the shared `out` channel until its input is
closed and drained, then calls `wg.Done()`.  A coordinator goroutine
performs `wg.Wait()` and then closes `out`.  The concurrent execution of
the two producers, the two forwarders and the coordinator is embedded as
a labelled transition system over an explicit state; any interleaving of
the participants is a path of the system. -/

namespace Merge

/-- `Interleaving xs ys zs`: `zs` is a shuffle of `xs` and `ys` that keeps
the relative order within each of `xs` and `ys`. -/
inductive Interleaving {α : Type} : List α → List α → List α → Prop
  | nil : Interleaving [] [] []
  | left {x : α} {xs ys zs : List α} :
      Interleaving xs ys zs → Interleaving (x :: xs) ys (x :: zs)
  | right {y : α} {xs ys zs : List α} :
      Interleaving xs ys zs → Interleaving xs (y :: ys) (y :: zs)
/-- The state of the merge combinator together with its two producers.
`sent1`/`sent2` record every value sent on each input channel so far;
`pend1`/`pend2` are the sent values the forwarders have not yet taken
(the channel contents); `in1Closed`/`in2Closed` say whether each input
channel has been closed by its producer; `fwd1`/`fwd2` are the values
each forwarding goroutine has already copied to `out`; `done1`/`done2`
say whether each forwarder has called `wg.Done()`; `wg` is the
`WaitGroup` counter (initially 2 from `wg.Add(2)`); `out` is the ordered
sequence of values sent on the shared output channel, and `outClosed`
whether the coordinator has closed it. -/
structure St (α : Type) where
  sent1 : List α
  sent2 : List α
  pend1 : List α
  pend2 : List α
  in1Closed : Bool
  in2Closed : Bool
  fwd1 : List α
  fwd2 : List α
  done1 : Bool
  done2 : Bool
  wg : Nat
  out : List α
  outClosed : Bool
  deriving DecidableEq, Repr

/-- The state right after `printer.merge` has set up its goroutines:
nothing sent, both inputs open, both forwarders running, `wg = 2`,
output open and empty. -/
def startSt (α : Type) : St α :=
  ⟨[], [], [], [], false, false, [], [], false, false, 2, [], false⟩

/-- Transition labels: producer sends and closes, forwarder copies and
completion signals, and the coordinator's close of the output. -/
inductive Label (α : Type)
  | sendIn1 (v : α)
  | sendIn2 (v : α)
  | closeIn1
  | closeIn2
  | fwdStep1
  | fwdStep2
  | fwdDone1
  | fwdDone2
  | closeOut
  deriving DecidableEq, Repr

/-- One atomic step of one of the five participants.  A producer may send
on or close its own open input channel; a forwarder with a pending value
copies it to `out` (`for n := range c { out <- n }`); a forwarder whose
input is closed and drained signals completion once (`wg.Done()`); the
coordinator closes `out` when the counter has reached zero (`wg.Wait();
close(out)`). -/
inductive Step {α : Type} : St α → Label α → St α → Prop
  | sendIn1 {s : St α} {v : α} (h : s.in1Closed = false) :
      Step s (.sendIn1 v) { s with sent1 := s.sent1 ++ [v], pend1 := s.pend1 ++ [v] }
  | sendIn2 {s : St α} {v : α} (h : s.in2Closed = false) :
      Step s (.sendIn2 v) { s with sent2 := s.sent2 ++ [v], pend2 := s.pend2 ++ [v] }
  | closeIn1 {s : St α} (h : s.in1Closed = false) :
      Step s .closeIn1 { s with in1Closed := true }
  | closeIn2 {s : St α} (h : s.in2Closed = false) :
      Step s .closeIn2 { s with in2Closed := true }
  | fwdStep1 {s : St α} {v : α} {r : List α} (h : s.pend1 = v :: r) (hd : s.done1 = false) :
      Step s .fwdStep1 { s with pend1 := r, fwd1 := s.fwd1 ++ [v], out := s.out ++ [v] }
  | fwdStep2 {s : St α} {v : α} {r : List α} (h : s.pend2 = v :: r) (hd : s.done2 = false) :
      Step s .fwdStep2 { s with pend2 := r, fwd2 := s.fwd2 ++ [v], out := s.out ++ [v] }
  | fwdDone1 {s : St α} (hp : s.pend1 = []) (hc : s.in1Closed = true) (hd : s.done1 = false) :
      Step s .fwdDone1 { s with done1 := true, wg := s.wg - 1 }
  | fwdDone2 {s : St α} (hp : s.pend2 = []) (hc : s.in2Closed = true) (hd : s.done2 = false) :
      Step s .fwdDone2 { s with done2 := true, wg := s.wg - 1 }
  | closeOut {s : St α} (hw : s.wg = 0) (ho : s.outClosed = false) :
      Step s .closeOut { s with outClosed := true }

/-- A concrete run used to instantiate the merge theorems: both producers
close their (empty) inputs, then both forwarders signal completion. -/
def exampleRunTrace : List (Label Nat) :=
  [.closeIn1, .closeIn2, .fwdDone1, .fwdDone2]

/-- The state reached by `exampleRunTrace`. -/
def exampleRunSt : St Nat :=
  ⟨[], [], [], [], true, true, [], [], true, true, 0, [], false⟩

/-- Finitely many steps, recording the labels in order. -/
inductive Reach {α : Type} : St α → List (Label α) → St α → Prop
  | refl (s : St α) : Reach s [] s
  | head {s s' s'' : St α} {l : Label α} {tr : List (Label α)} :
      Step s l s' → Reach s' tr s'' → Reach s (l :: tr) s''
/-- The state invariant of the merge protocol, preserved by every step. -/
def Inv {α : Type} (s : St α) : Prop :=
  (s.done1 = true → s.in1Closed = true ∧ s.pend1 = []) ∧
  (s.done2 = true → s.in2Closed = true ∧ s.pend2 = []) ∧
  s.wg = (if s.done1 = true then 0 else 1) + (if s.done2 = true then 0 else 1) ∧
  (s.outClosed = true → s.done1 = true ∧ s.done2 = true) ∧
  s.sent1 = s.fwd1 ++ s.pend1 ∧
  s.sent2 = s.fwd2 ++ s.pend2 ∧
  Interleaving s.fwd1 s.fwd2 s.out
/-- Recognizes the coordinator's close of the shared output channel. -/
def isCloseOutLabel {α : Type} : Label α → Bool
  | .closeOut => true
  | _ => false
end Merge

/-! ## Supporting lemmas -/

/-- `splitOnSpace` never returns the empty list (Go `strings.Split` with a
non-empty separator always returns at least one field). -/
theorem splitOnSpace_ne_nil (l : List Char) : splitOnSpace l ≠ [] := by
  induction l with
  | nil => simp [splitOnSpace]
  | cons c rest ih =>
    unfold splitOnSpace
    by_cases hc : c = ' '
    · simp [hc]
    · simp only [hc, if_false]
      cases h : splitOnSpace rest with
      | nil => simp
      | cons t ts => simp

/-- Splitting around every space yields one more field than there are
space characters. -/
theorem splitOnSpace_length (l : List Char) :
    (splitOnSpace l).length = l.count ' ' + 1 := by
  induction l with
  | nil => simp [splitOnSpace]
  | cons c rest ih =>
    unfold splitOnSpace
    by_cases hc : c = ' '
    · subst hc
      simp [List.count_cons, ih]
    · simp only [hc, if_false]
      cases h : splitOnSpace rest with
      | nil => exact absurd h (splitOnSpace_ne_nil rest)
      | cons t ts =>
        rw [h] at ih
        simp only [List.length_cons] at ih ⊢
        have hcc : (' ' == c) = false :=
          beq_eq_false_iff_ne.mpr fun he => hc he.symm
        simp [List.count_cons, hcc, ih, hc]

namespace Merge

theorem Interleaving.snocLeft {α : Type} {xs ys zs : List α} {v : α}
    (h : Interleaving xs ys zs) : Interleaving (xs ++ [v]) ys (zs ++ [v]) := by
  induction h with
  | nil => exact .left .nil
  | left _ ih => exact .left ih
  | right _ ih => exact .right ih

theorem Interleaving.snocRight {α : Type} {xs ys zs : List α} {v : α}
    (h : Interleaving xs ys zs) : Interleaving xs (ys ++ [v]) (zs ++ [v]) := by
  induction h with
  | nil => exact .right .nil
  | left _ ih => exact .left ih
  | right _ ih => exact .right ih

theorem Interleaving.countP_eq {α : Type} {xs ys zs : List α}
    (h : Interleaving xs ys zs) (p : α → Bool) :
    zs.countP p = xs.countP p + ys.countP p := by
  induction h with
  | nil => simp
  | left _ ih => simp [List.countP_cons, ih]; omega
  | right _ ih => simp [List.countP_cons, ih]; omega

theorem Interleaving.sublistLeft {α : Type} {xs ys zs : List α}
    (h : Interleaving xs ys zs) : xs.Sublist zs := by
  induction h with
  | nil => exact .slnil
  | left _ ih => exact ih.cons₂ _
  | right _ ih => exact ih.cons _

theorem Interleaving.sublistRight {α : Type} {xs ys zs : List α}
    (h : Interleaving xs ys zs) : ys.Sublist zs := by
  induction h with
  | nil => exact .slnil
  | left _ ih => exact ih.cons _
  | right _ ih => exact ih.cons₂ _

theorem Reach.trans {α : Type} {s s' s'' : St α} {tr1 tr2 : List (Label α)}
    (h1 : Reach s tr1 s') (h2 : Reach s' tr2 s'') : Reach s (tr1 ++ tr2) s'' := by
  induction h1 with
  | refl => simpa using h2
  | head st _ ih => exact .head st (ih h2)

theorem Inv.start (α : Type) : Inv (startSt α) := by
  refine ⟨?_, ?_, ?_, ?_, ?_, ?_, ?_⟩ <;> simp [startSt]
  exact .nil

theorem Inv.step {α : Type} {s s' : St α} {l : Label α}
    (hinv : Inv s) (hstep : Step s l s') : Inv s' := by
  obtain ⟨hd1, hd2, hwg, hoc, hs1, hs2, hint⟩ := hinv
  cases hstep with
  | sendIn1 h =>
    refine ⟨?_, hd2, hwg, ?_, ?_, hs2, hint⟩
    · intro hdn; exact absurd (hd1 hdn).1 (by simp [h])
    · intro hon; exact absurd (hd1 (hoc hon).1).1 (by simp [h])
    · simp [hs1]
  | sendIn2 h =>
    refine ⟨hd1, ?_, hwg, ?_, hs1, ?_, hint⟩
    · intro hdn; exact absurd (hd2 hdn).1 (by simp [h])
    · intro hon; exact absurd (hd2 (hoc hon).2).1 (by simp [h])
    · simp [hs2]
  | closeIn1 h =>
    exact ⟨fun hdn => ⟨rfl, (hd1 hdn).2⟩, hd2, hwg, hoc, hs1, hs2, hint⟩
  | closeIn2 h =>
    exact ⟨hd1, fun hdn => ⟨rfl, (hd2 hdn).2⟩, hwg, hoc, hs1, hs2, hint⟩
  | fwdStep1 h hd =>
    refine ⟨?_, hd2, hwg, ?_, ?_, hs2, hint.snocLeft⟩
    · intro hdn; exact absurd hdn (by simp [hd])
    · intro hon; exact absurd (hoc hon).1 (by simp [hd])
    · rw [hs1, h]; simp
  | fwdStep2 h hd =>
    refine ⟨hd1, ?_, hwg, ?_, hs1, ?_, hint.snocRight⟩
    · intro hdn; exact absurd hdn (by simp [hd])
    · intro hon; exact absurd (hoc hon).2 (by simp [hd])
    · rw [hs2, h]; simp
  | fwdDone1 hp hc hd =>
    refine ⟨fun _ => ⟨hc, hp⟩, hd2, ?_, ?_, hs1, hs2, hint⟩
    · cases h2 : s.done2 <;> simp [hd, h2] at hwg ⊢ <;> omega
    · intro hon; exact absurd (hoc hon).1 (by simp [hd])
  | fwdDone2 hp hc hd =>
    refine ⟨hd1, fun _ => ⟨hc, hp⟩, ?_, ?_, hs1, hs2, hint⟩
    · cases h1 : s.done1 <;> simp [hd, h1] at hwg ⊢ <;> omega
    · intro hon; exact absurd (hoc hon).2 (by simp [hd])
  | closeOut hw ho =>
    have hdone : s.done1 = true ∧ s.done2 = true := by
      rw [hw] at hwg
      constructor
      · by_contra hne
        simp [hne] at hwg
        omega
      · by_contra hne
        simp [hne] at hwg
    exact ⟨hd1, hd2, hwg, fun _ => hdone, hs1, hs2, hint⟩

theorem Inv.reach {α : Type} {s s' : St α} {tr : List (Label α)}
    (hinv : Inv s) (hr : Reach s tr s') : Inv s' := by
  induction hr with
  | refl => exact hinv
  | head st _ ih => exact ih (hinv.step st)

theorem Step.outClosed_cases {α : Type} {s s' : St α} {l : Label α} (h : Step s l s') :
    (isCloseOutLabel l = true ∧ s.outClosed = false ∧ s'.outClosed = true) ∨
    (isCloseOutLabel l = false ∧ s'.outClosed = s.outClosed) := by
  cases h <;> simp_all [isCloseOutLabel]

/-- Close-of-output accounting along any run: the number of `closeOut`
events in the trace is the change of the `outClosed` flag, hence the
output channel is closed at most once, and exactly once in any run that
ends with it closed. -/
theorem Reach.closeOutCount {α : Type} {s s' : St α} {tr : List (Label α)}
    (h : Reach s tr s') :
    (if s.outClosed = true then 1 else 0) + tr.countP isCloseOutLabel
      = (if s'.outClosed = true then 1 else 0) := by
  induction h with
  | refl => simp
  | head st _ ih =>
    rw [List.countP_cons]
    rcases st.outClosed_cases with ⟨hl, ho, ho'⟩ | ⟨hl, ho⟩
    · rw [ho'] at ih
      rw [ho, hl]
      simp at ih ⊢
      omega
    · rw [ho] at ih
      rw [hl]
      simp
      omega

/-- A running forwarder can drain its pending input values, copying them
to the output in order. -/
theorem drainPend1 {α : Type} (l : List α) :
    ∀ s : St α, s.pend1 = l → s.done1 = false →
      ∃ tr : List (Label α), Reach s tr
        { s with pend1 := ([] : List α), fwd1 := s.fwd1 ++ l, out := s.out ++ l } := by
  induction l with
  | nil =>
    intro s hp _
    refine ⟨[], ?_⟩
    have he : { s with pend1 := ([] : List α), fwd1 := s.fwd1 ++ [], out := s.out ++ [] } = s := by
      cases s
      simp_all
    rw [he]
    exact .refl s
  | cons v r ih =>
    intro s hp hd
    obtain ⟨tr, hr⟩ :=
      ih { s with pend1 := r, fwd1 := s.fwd1 ++ [v], out := s.out ++ [v] } rfl hd
    refine ⟨.fwdStep1 :: tr, .head (.fwdStep1 hp hd) ?_⟩
    simpa [List.append_assoc] using hr

/-- Same as `drainPend1` for the second forwarder. -/
theorem drainPend2 {α : Type} (l : List α) :
    ∀ s : St α, s.pend2 = l → s.done2 = false →
      ∃ tr : List (Label α), Reach s tr
        { s with pend2 := ([] : List α), fwd2 := s.fwd2 ++ l, out := s.out ++ l } := by
  induction l with
  | nil =>
    intro s hp _
    refine ⟨[], ?_⟩
    have he : { s with pend2 := ([] : List α), fwd2 := s.fwd2 ++ [], out := s.out ++ [] } = s := by
      cases s
      simp_all
    rw [he]
    exact .refl s
  | cons v r ih =>
    intro s hp hd
    obtain ⟨tr, hr⟩ :=
      ih { s with pend2 := r, fwd2 := s.fwd2 ++ [v], out := s.out ++ [v] } rfl hd
    refine ⟨.fwdStep2 :: tr, .head (.fwdStep2 hp hd) ?_⟩
    simpa [List.append_assoc] using hr

/-- Once its input channel is closed, the first forwarder can run to its
completion signal. -/
theorem ensureDone1 {α : Type} (s : St α) (hc : s.in1Closed = true) :
    ∃ (tr : List (Label α)) (s' : St α), Reach s tr s' ∧
      s'.done1 = true ∧ s'.done2 = s.done2 ∧
      s'.in2Closed = s.in2Closed ∧ s'.outClosed = s.outClosed := by
  cases hdone : s.done1 with
  | true => exact ⟨[], s, .refl s, hdone, rfl, rfl, rfl⟩
  | false =>
    obtain ⟨tr1, hr1⟩ := drainPend1 s.pend1 s rfl hdone
    have hstep : Step
        { s with pend1 := ([] : List α), fwd1 := s.fwd1 ++ s.pend1, out := s.out ++ s.pend1 }
        (Label.fwdDone1 : Label α)
        { s with pend1 := ([] : List α), fwd1 := s.fwd1 ++ s.pend1, out := s.out ++ s.pend1,
                 done1 := true, wg := s.wg - 1 } :=
      Step.fwdDone1 rfl hc hdone
    exact ⟨tr1 ++ [.fwdDone1],
      { s with pend1 := ([] : List α), fwd1 := s.fwd1 ++ s.pend1, out := s.out ++ s.pend1,
               done1 := true, wg := s.wg - 1 },
      hr1.trans (.head hstep (.refl _)), rfl, rfl, rfl, rfl⟩

/-- Once its input channel is closed, the second forwarder can run to its
completion signal. -/
theorem ensureDone2 {α : Type} (s : St α) (hc : s.in2Closed = true) :
    ∃ (tr : List (Label α)) (s' : St α), Reach s tr s' ∧
      s'.done2 = true ∧ s'.done1 = s.done1 ∧ s'.outClosed = s.outClosed := by
  cases hdone : s.done2 with
  | true => exact ⟨[], s, .refl s, hdone, rfl, rfl⟩
  | false =>
    obtain ⟨tr1, hr1⟩ := drainPend2 s.pend2 s rfl hdone
    have hstep : Step
        { s with pend2 := ([] : List α), fwd2 := s.fwd2 ++ s.pend2, out := s.out ++ s.pend2 }
        (Label.fwdDone2 : Label α)
        { s with pend2 := ([] : List α), fwd2 := s.fwd2 ++ s.pend2, out := s.out ++ s.pend2,
                 done2 := true, wg := s.wg - 1 } :=
      Step.fwdDone2 rfl hc hdone
    exact ⟨tr1 ++ [.fwdDone2],
      { s with pend2 := ([] : List α), fwd2 := s.fwd2 ++ s.pend2, out := s.out ++ s.pend2,
               done2 := true, wg := s.wg - 1 },
      hr1.trans (.head hstep (.refl _)), rfl, rfl, rfl⟩

/-- Once both input channels are closed, some continuation of the run
closes the shared output channel (the coordinator's `wg.Wait()` can
return and `close(out)` runs). -/
theorem closeReachable {α : Type} (s : St α) (hinv : Inv s)
    (h1 : s.in1Closed = true) (h2 : s.in2Closed = true) :
    ∃ (tr : List (Label α)) (s' : St α), Reach s tr s' ∧ s'.outClosed = true := by
  cases ho : s.outClosed with
  | true => exact ⟨[], s, .refl s, ho⟩
  | false =>
    obtain ⟨trA, sA, hrA, hAd1, hAd2, hAc2, hAoc⟩ := ensureDone1 s h1
    have hinvA : Inv sA := hinv.reach hrA
    obtain ⟨trB, sB, hrB, hBd2, hBd1, hBoc⟩ := ensureDone2 sA (hAc2.trans h2)
    have hinvB : Inv sB := hinvA.reach hrB
    have hw : sB.wg = 0 := by
      have := hinvB.2.2.1
      rw [hBd2, hBd1.trans hAd1] at this
      simpa using this
    refine ⟨trA ++ (trB ++ [.closeOut]), { sB with outClosed := true },
      hrA.trans (hrB.trans (.head (.closeOut hw ?_) (.refl _))), rfl⟩
    rw [hBoc, hAoc, ho]

/-- Scheduling is free: from any quiescent open state, the producers and
forwarders can run so that the values `xs` pass through input 1, `ys`
through input 2, and the output receives exactly the interleaving `zs`. -/
theorem interleavingRunFrom {α : Type} {xs ys zs : List α} (h : Interleaving xs ys zs) :
    ∀ s : St α, s.pend1 = [] → s.pend2 = [] → s.in1Closed = false → s.in2Closed = false →
      s.done1 = false → s.done2 = false →
      ∃ tr : List (Label α), Reach s tr
        { s with sent1 := s.sent1 ++ xs, sent2 := s.sent2 ++ ys,
                 fwd1 := s.fwd1 ++ xs, fwd2 := s.fwd2 ++ ys, out := s.out ++ zs } := by
  induction h with
  | nil =>
    intro s _ _ _ _ _ _
    refine ⟨[], ?_⟩
    have he : { s with sent1 := s.sent1 ++ ([] : List α),
                       sent2 := s.sent2 ++ ([] : List α),
                       fwd1 := s.fwd1 ++ ([] : List α),
                       fwd2 := s.fwd2 ++ ([] : List α),
                       out := s.out ++ ([] : List α) } = s := by
      cases s
      simp
    rw [he]
    exact .refl s
  | left _ ih =>
    rename_i x xs1 ys1 zs1 _
    intro s hp1 hp2 hc1 hc2 hd1 hd2
    have st1 : Step s (Label.sendIn1 x)
        { s with sent1 := s.sent1 ++ [x], pend1 := s.pend1 ++ [x] } := Step.sendIn1 hc1
    have st2 : Step { s with sent1 := s.sent1 ++ [x], pend1 := s.pend1 ++ [x] }
        (Label.fwdStep1 : Label α)
        { s with sent1 := s.sent1 ++ [x], pend1 := ([] : List α),
                 fwd1 := s.fwd1 ++ [x], out := s.out ++ [x] } := by
      have hpx : ({ s with sent1 := s.sent1 ++ [x], pend1 := s.pend1 ++ [x] } : St α).pend1
          = x :: [] := by simp [hp1]
      exact Step.fwdStep1 hpx hd1
    obtain ⟨tr, hr⟩ := ih
      { s with sent1 := s.sent1 ++ [x], pend1 := ([] : List α),
               fwd1 := s.fwd1 ++ [x], out := s.out ++ [x] }
      rfl hp2 hc1 hc2 hd1 hd2
    refine ⟨Label.sendIn1 x :: Label.fwdStep1 :: tr, .head st1 (.head st2 ?_)⟩
    simpa [List.append_assoc, hp1] using hr
  | right _ ih =>
    rename_i y xs1 ys1 zs1 _
    intro s hp1 hp2 hc1 hc2 hd1 hd2
    have st1 : Step s (Label.sendIn2 y)
        { s with sent2 := s.sent2 ++ [y], pend2 := s.pend2 ++ [y] } := Step.sendIn2 hc2
    have st2 : Step { s with sent2 := s.sent2 ++ [y], pend2 := s.pend2 ++ [y] }
        (Label.fwdStep2 : Label α)
        { s with sent2 := s.sent2 ++ [y], pend2 := ([] : List α),
                 fwd2 := s.fwd2 ++ [y], out := s.out ++ [y] } := by
      have hpy : ({ s with sent2 := s.sent2 ++ [y], pend2 := s.pend2 ++ [y] } : St α).pend2
          = y :: [] := by simp [hp2]
      exact Step.fwdStep2 hpy hd2
    obtain ⟨tr, hr⟩ := ih
      { s with sent2 := s.sent2 ++ [y], pend2 := ([] : List α),
               fwd2 := s.fwd2 ++ [y], out := s.out ++ [y] }
      hp1 rfl hc1 hc2 hd1 hd2
    refine ⟨Label.sendIn2 y :: Label.fwdStep2 :: tr, .head st1 (.head st2 ?_)⟩
    simpa [List.append_assoc, hp2] using hr

/-- Every interleaving of two finite input streams is a possible complete
outcome of the merge: the inputs can be sent and closed, the forwarders
and coordinator run to completion, and the closed output carries exactly
that interleaving.  Hence no ordering across the two inputs is
guaranteed beyond the per-input order. -/
theorem anyInterleavingReachable {α : Type} {xs ys zs : List α}
    (h : Interleaving xs ys zs) :
    ∃ (tr : List (Label α)) (s' : St α), Reach (startSt α) tr s' ∧
      s'.sent1 = xs ∧ s'.sent2 = ys ∧ s'.out = zs ∧ s'.outClosed = true := by
  obtain ⟨tr0, hr0⟩ := interleavingRunFrom h (startSt α) rfl rfl rfl rfl rfl rfl
  have hr0' : Reach (startSt α) tr0
      (⟨xs, ys, [], [], false, false, xs, ys, false, false, 2, zs, false⟩ : St α) := by
    simpa [startSt] using hr0
  have h1 : Step (⟨xs, ys, [], [], false, false, xs, ys, false, false, 2, zs, false⟩ : St α)
      .closeIn1 ⟨xs, ys, [], [], true, false, xs, ys, false, false, 2, zs, false⟩ :=
    Step.closeIn1 rfl
  have h2 : Step (⟨xs, ys, [], [], true, false, xs, ys, false, false, 2, zs, false⟩ : St α)
      .closeIn2 ⟨xs, ys, [], [], true, true, xs, ys, false, false, 2, zs, false⟩ :=
    Step.closeIn2 rfl
  have h3 : Step (⟨xs, ys, [], [], true, true, xs, ys, false, false, 2, zs, false⟩ : St α)
      .fwdDone1 ⟨xs, ys, [], [], true, true, xs, ys, true, false, 1, zs, false⟩ :=
    Step.fwdDone1 rfl rfl rfl
  have h4 : Step (⟨xs, ys, [], [], true, true, xs, ys, true, false, 1, zs, false⟩ : St α)
      .fwdDone2 ⟨xs, ys, [], [], true, true, xs, ys, true, true, 0, zs, false⟩ :=
    Step.fwdDone2 rfl rfl rfl
  have h5 : Step (⟨xs, ys, [], [], true, true, xs, ys, true, true, 0, zs, false⟩ : St α)
      .closeOut ⟨xs, ys, [], [], true, true, xs, ys, true, true, 0, zs, true⟩ :=
    Step.closeOut rfl rfl
  exact ⟨tr0 ++ [.closeIn1, .closeIn2, .fwdDone1, .fwdDone2, .closeOut],
    ⟨xs, ys, [], [], true, true, xs, ys, true, true, 0, zs, true⟩,
    hr0'.trans (.head h1 (.head h2 (.head h3 (.head h4 (.head h5 (.refl _)))))),
    rfl, rfl, rfl, rfl⟩

/-- The concrete example run is a run of the system. -/
theorem exampleRunReach : Reach (startSt Nat) exampleRunTrace exampleRunSt :=
  .head (.closeIn1 rfl)
    (.head (.closeIn2 rfl)
      (.head (.fwdDone1 rfl rfl rfl)
        (.head (.fwdDone2 rfl rfl rfl) (.refl _))))

end Merge

/-! ## Claim theorems -/

/-- C1: in the merge of the printer's two input channels, the shared
output channel is closed only when both forwarding tasks have signalled
completion and both input channels are closed and drained (so it is never
closed while an input is still open); the number of close events in any
run equals 0 or 1 according to whether the output has been closed, so it
is closed at most once and exactly once in a completed run; and whenever
both inputs have closed, the run can be continued by the coordinator to
the single close of the output. -/
theorem merge_closure_protocol {α : Type} (tr : List (Merge.Label α)) (s : Merge.St α)
    (hr : Merge.Reach (Merge.startSt α) tr s) :
    (s.outClosed = true →
      s.in1Closed = true ∧ s.in2Closed = true ∧ s.done1 = true ∧ s.done2 = true ∧
      s.pend1 = [] ∧ s.pend2 = []) ∧
    tr.countP Merge.isCloseOutLabel = (if s.outClosed = true then 1 else 0) ∧
    (s.in1Closed = true → s.in2Closed = true →
      ∃ (tr' : List (Merge.Label α)) (s' : Merge.St α),
        Merge.Reach s tr' s' ∧ s'.outClosed = true ∧
        (tr ++ tr').countP Merge.isCloseOutLabel = 1) := by
  have hinv : Merge.Inv s := (Merge.Inv.start α).reach hr
  obtain ⟨hd1, hd2, hwg, hoc, hs1, hs2, hint⟩ := hinv
  refine ⟨?_, ?_, ?_⟩
  · intro ho
    obtain ⟨hD1, hD2⟩ := hoc ho
    exact ⟨(hd1 hD1).1, (hd2 hD2).1, hD1, hD2, (hd1 hD1).2, (hd2 hD2).2⟩
  · simpa [Merge.startSt] using hr.closeOutCount
  · intro h1 h2
    obtain ⟨tr', s', hr', ho'⟩ :=
      Merge.closeReachable s ⟨hd1, hd2, hwg, hoc, hs1, hs2, hint⟩ h1 h2
    refine ⟨tr', s', hr', ho', ?_⟩
    simpa [Merge.startSt, ho'] using (hr.trans hr').closeOutCount

/-- Witness for C1: the empty run from the start state. -/
theorem merge_closure_protocol_witness :
    Merge.Reach (Merge.startSt Nat) [] (Merge.startSt Nat) ∧
    ([] : List (Merge.Label Nat)).countP Merge.isCloseOutLabel
      = (if (Merge.startSt Nat).outClosed = true then 1 else 0) :=
  ⟨.refl _, (merge_closure_protocol [] (Merge.startSt Nat) (.refl _)).2.1⟩

/-- C2: in every run of the merge in which both forwarding tasks have
finished, the output stream is an interleaving of the two input streams:
every value sent on either input occurs exactly once (counted by any
predicate, counts add up), and the relative order of the values of each
single input is preserved as a sublist of the output.  Conversely every
interleaving of the two input streams is realizable by some run, so no
ordering across the two inputs is guaranteed. -/
theorem merge_no_loss_no_duplication {α : Type} (tr : List (Merge.Label α)) (s : Merge.St α)
    (hr : Merge.Reach (Merge.startSt α) tr s)
    (h1 : s.done1 = true) (h2 : s.done2 = true) :
    Merge.Interleaving s.sent1 s.sent2 s.out ∧
    (∀ p : α → Bool, s.out.countP p = s.sent1.countP p + s.sent2.countP p) ∧
    s.sent1.Sublist s.out ∧ s.sent2.Sublist s.out ∧
    (∀ xs ys zs : List α, Merge.Interleaving xs ys zs →
      ∃ (tr' : List (Merge.Label α)) (s' : Merge.St α),
        Merge.Reach (Merge.startSt α) tr' s' ∧ s'.sent1 = xs ∧ s'.sent2 = ys ∧
        s'.out = zs ∧ s'.outClosed = true) := by
  have hinv : Merge.Inv s := (Merge.Inv.start α).reach hr
  obtain ⟨hd1, hd2, hwg, hoc, hs1, hs2, hint⟩ := hinv
  have e1 : s.sent1 = s.fwd1 := by rw [hs1, (hd1 h1).2, List.append_nil]
  have e2 : s.sent2 = s.fwd2 := by rw [hs2, (hd2 h2).2, List.append_nil]
  have hintS : Merge.Interleaving s.sent1 s.sent2 s.out := by
    rw [e1, e2]; exact hint
  exact ⟨hintS, fun p => hintS.countP_eq p, hintS.sublistLeft, hintS.sublistRight,
    fun xs ys zs h => Merge.anyInterleavingReachable h⟩

/-- Witness for C2: the concrete completed run with empty inputs. -/
theorem merge_no_loss_no_duplication_witness :
    (Merge.Reach (Merge.startSt Nat) Merge.exampleRunTrace Merge.exampleRunSt ∧
      Merge.exampleRunSt.done1 = true ∧ Merge.exampleRunSt.done2 = true) ∧
    Merge.Interleaving Merge.exampleRunSt.sent1 Merge.exampleRunSt.sent2
      Merge.exampleRunSt.out :=
  ⟨⟨Merge.exampleRunReach, rfl, rfl⟩,
    (merge_no_loss_no_duplication Merge.exampleRunTrace Merge.exampleRunSt
      Merge.exampleRunReach rfl rfl).1⟩

/-- C3: the printer prints every arriving tagged count, in arrival order,
and closes the Done channel exactly once, as the last event of its trace,
only after the merged stream is exhausted; the driver's blocking receive
on that channel unblocks exactly after all counts are printed and the
close has happened. -/
theorem printer_completion_protocol (xs : List Count) :
    printerTrace xs = xs.map .printLine ++ [.closeDone] ∧
    (printerTrace xs).countP isCloseDone = 1 ∧
    (∀ k : Nat, driverUnblockedAt (printerTrace xs) k = true ↔ xs.length + 1 ≤ k) := by
  have htr : printerTrace xs = xs.map .printLine ++ [.closeDone] := by
    induction xs with
    | nil => rfl
    | cons c rest ih => simp [printerTrace, ih]
  have hfalse : ∀ k : Nat, ((xs.map PrinterEvent.printLine).take k).any isCloseDone = false := by
    intro k
    rw [List.any_eq_false]
    intro x hx
    obtain ⟨c, _, rfl⟩ := List.mem_map.mp (List.take_subset _ _ hx)
    simp [isCloseDone]
  refine ⟨htr, ?_, ?_⟩
  · rw [htr]
    simp [List.countP_append, List.countP_map, List.countP_cons, isCloseDone, Function.comp]
  · intro k
    unfold driverUnblockedAt
    rw [htr, List.take_append_eq_append_take, List.any_append, hfalse k]
    simp only [Bool.false_or, List.length_map]
    rcases Nat.lt_or_ge k (xs.length + 1) with hk | hk
    · have h0 : k - xs.length = 0 := by omega
      rw [h0]
      simp only [List.take_zero, List.any_nil]
      constructor
      · intro hf; cases hf
      · intro hle; omega
    · have h1 : ∃ m, k - xs.length = m + 1 := ⟨k - xs.length - 1, by omega⟩
      obtain ⟨m, hm⟩ := h1
      rw [hm]
      simp only [List.take_succ_cons, List.take_nil, List.any_cons, List.any_nil]
      simp [isCloseDone]
      omega

/-- Witness for C3 at a one-element merged stream. -/
theorem printer_completion_protocol_witness :
    printerTrace [(⟨"Words", 13⟩ : Count)]
      = [(⟨"Words", 13⟩ : Count)].map .printLine ++ [.closeDone] :=
  (printer_completion_protocol [⟨"Words", 13⟩]).1

/-- C4: for every input string, the word count emitted by the wordCounter
is the number of fields obtained by splitting the string on the single
space character, consecutive delimiters yielding empty fields that are
counted like any others — equivalently, the number of space characters
plus one. -/
theorem wordCount_split_characterization (s : String) :
    wordCount s = (splitOnSpace s.data).length ∧
    wordCount s = s.data.count ' ' + 1 :=
  ⟨rfl, splitOnSpace_length s.data⟩

/-- Witness for C4 on a string with consecutive spaces: the empty field
between the two spaces is counted. -/
theorem wordCount_split_characterization_witness :
    wordCount "a  b" = (splitOnSpace "a  b".data).length ∧
    wordCount "a  b" = "a  b".data.count ' ' + 1 :=
  wordCount_split_characterization "a  b"

/-- C5: applied to the three reference sentences, the wordCounter emits
the counts 13, 17 and 8 respectively, each tagged with the fixed string
"Words". -/
theorem wordCounter_reference_counts :
    wordCounterEmit sentence1 = ⟨"Words", 13⟩ ∧
    wordCounterEmit sentence2 = ⟨"Words", 17⟩ ∧
    wordCounterEmit sentence3 = ⟨"Words", 8⟩ := by
  refine ⟨?_, ?_, ?_⟩ <;> decide

/-- C6: the letter count is the number of characters in the class
`[A-Za-z]`; the pattern matcher is compiled exactly once per trace of the
node, at startup, not once per value; and the three reference sentences
yield 45, 70 and 36 letters respectively, each tagged "Letters". -/
theorem letterCounter_reference_counts :
    (∀ s : String, letterCounterEmit s
      = ⟨"Letters", (s.data.filter isAsciiLetter).length⟩) ∧
    (∀ xs : List String, (letterCounterTrace xs).countP isCompileMatcher = 1) ∧
    letterCounterEmit sentence1 = ⟨"Letters", 45⟩ ∧
    letterCounterEmit sentence2 = ⟨"Letters", 70⟩ ∧
    letterCounterEmit sentence3 = ⟨"Letters", 36⟩ := by
  refine ⟨?_, ?_, ?_, ?_, ?_⟩
  · intro s
    unfold letterCounterEmit letterCount
    rw [List.countP_eq_length_filter]
  · intro xs
    simp [letterCounterTrace, List.countP_cons, List.countP_append, List.countP_map,
      isCompileMatcher, Function.comp]
  · decide
  · decide
  · decide

/-- Witness for C6 at the third reference sentence and a two-element
input stream. -/
theorem letterCounter_reference_counts_witness :
    letterCounterEmit sentence3
      = ⟨"Letters", (sentence3.data.filter isAsciiLetter).length⟩ ∧
    (letterCounterTrace [sentence3, sentence3]).countP isCompileMatcher = 1 :=
  ⟨letterCounter_reference_counts.1 sentence3,
    letterCounter_reference_counts.2.1 [sentence3, sentence3]⟩

/-- C7: the splitter's trace on any finite input is exactly, per received
value, a write to Out1 followed by a write to Out2, before the next
receive, followed at exhaustion by the closes of Out1 and Out2; hence
each output carries exactly the input sequence in order, and no output is
closed before the input is exhausted. -/
theorem splitter_fanout_fidelity (xs : List String) :
    splitterTrace xs
      = (xs.flatMap fun s => [.sendOut1 s, .sendOut2 s]) ++ [.closeOut1, .closeOut2] ∧
    out1Values (splitterTrace xs) = xs ∧
    out2Values (splitterTrace xs) = xs := by
  induction xs with
  | nil => exact ⟨rfl, rfl, rfl⟩
  | cons s rest ih =>
    obtain ⟨h1, h2, h3⟩ := ih
    refine ⟨?_, ?_, ?_⟩
    · simp [splitterTrace, h1]
    · show s :: out1Values (splitterTrace rest) = s :: rest
      rw [h2]
    · show out2Values (.sendOut2 s :: splitterTrace rest) = s :: rest
      show s :: out2Values (splitterTrace rest) = s :: rest
      rw [h3]

/-- Witness for C7 at a concrete two-value input. -/
theorem splitter_fanout_fidelity_witness :
    out1Values (splitterTrace ["a", "b"]) = ["a", "b"] ∧
    out2Values (splitterTrace ["a", "b"]) = ["a", "b"] :=
  ⟨(splitter_fanout_fidelity ["a", "b"]).2.1, (splitter_fanout_fidelity ["a", "b"]).2.2⟩

/-- C8: each node's `Process` method launches the node's work
asynchronously: every statement it executes before returning — console
banner, channel allocation, `wg.Add`, goroutine spawns — is non-blocking,
for any state of the node's channels, so `Process` returns immediately. -/
theorem process_returns_immediately :
    (splitterProcessSyncActs.all fun a => !canBlock a) = true ∧
    (wordCounterProcessSyncActs.all fun a => !canBlock a) = true ∧
    (letterCounterProcessSyncActs.all fun a => !canBlock a) = true ∧
    (printerProcessSyncActs.all fun a => !canBlock a) = true := by
  decide

/-- C9: every input string yields a word count of at least 1; in
particular the empty string yields 1, not 0. -/
theorem wordCount_never_zero :
    wordCount "" = 1 ∧ ∀ s : String, 1 ≤ wordCount s := by
  refine ⟨by decide, fun s => ?_⟩
  have h := splitOnSpace_length s.data
  unfold wordCount
  omega

/-- C10: letter counting is additive over string concatenation, and a
character outside ASCII `[a-zA-Z]` contributes zero. -/
theorem letterCount_additive :
    (∀ s t : String, letterCount (s ++ t) = letterCount s + letterCount t) ∧
    (∀ c : Char, isAsciiLetter c = false → letterCount (String.mk [c]) = 0) := by
  constructor
  · intro s t
    have hdata : (s ++ t).data = s.data ++ t.data := by
      cases s; cases t; rfl
    unfold letterCount
    rw [hdata, List.countP_append]
  · intro c hc
    unfold letterCount
    simp [List.countP_cons, hc]

/-- Witness for C10 at concrete strings, a period and a non-Latin
character. -/
theorem letterCount_additive_witness :
    letterCount (sentence3 ++ sentence3) = letterCount sentence3 + letterCount sentence3 ∧
    (isAsciiLetter '.' = false ∧ letterCount (String.mk ['.']) = 0) ∧
    (isAsciiLetter 'é' = false ∧ letterCount (String.mk ['é']) = 0) :=
  ⟨letterCount_additive.1 sentence3 sentence3,
    ⟨by decide, letterCount_additive.2 '.' (by decide)⟩,
    ⟨by decide, letterCount_additive.2 'é' (by decide)⟩⟩

end Flow2Go
